import Mathlib

/-!
Verification of the audio segmentation and sequential-transcription core of
`whisper_site.py` (functions `decouper_audio` and `transcrire_audio`).

The embedding follows the source:

`decouper_audio(path)` (src/whisper_site.py, lines 219-239) reads the file's
byte size (`path.stat().st_size`, a Python `int`) and computes
`size_mb = st_size / (1024 * 1024)`.  If `size_mb <= 25` it returns the
original file as the single unit; since the float division by the power of
two `2^20` is exact, this test is exactly `st_size <= 25 * 1024 * 1024`.
Otherwise it loads the audio, takes its length in milliseconds
(`duree_ms = len(audio)`, a nonnegative `int`), computes
`nb_segments = math.ceil(size_mb / 25)` — in exact arithmetic
`⌈st_size / (25 * 2^20)⌉` — and `segment_duree = duree_ms // nb_segments`,
and for `i` in `range(nb_segments)` exports the time range
`[i * segment_duree, (i+1) * segment_duree)`, except the last segment whose
end is `duree_ms`.  We embed the returned list of physical units as the list
of `(start, end)` millisecond ranges they cover; the single unsplit original
file covers `[0, duree_ms)`.

`transcrire_audio(path)` (lines 263-277) obtains the segment list, then for
each segment in order calls the transcription capability and appends
`res + "\n"` to the accumulator `texte_total`; an exception raised by the
call propagates unchanged (there is no try/except).  On success it returns
`texte_total.strip()`.  The capability is embedded as a function from the
segment index to `Except ε String` (the call either returns text or fails
with an opaque cause of type `ε`); Python's `str.strip()` is embedded as
`strip`, dropping leading and trailing whitespace characters.
-/

set_option autoImplicit false

namespace WhisperSite

/-- The fixed size threshold in bytes: 25 MiB, from the test `size_mb <= 25`
with `size_mb = st_size / (1024 * 1024)` in `decouper_audio`. -/
def seuil : Nat := 25 * 1024 * 1024

/-- `nb_segments = math.ceil(size_mb / 25)` of `decouper_audio`, in exact
integer arithmetic: `⌈byteSize / (25 * 2^20)⌉` for positive `byteSize`,
written with the usual Nat ceiling-division formula. -/
def nbSegments (byteSize : Int) : Nat :=
  (byteSize.toNat + seuil - 1) / seuil

/-- Embedding of `decouper_audio` (src/whisper_site.py, lines 219-239) as the
plan of `(start, end)` millisecond ranges of the returned audio units.
`byteSize` is `path.stat().st_size` (a Python `int`), `dureeMs` is
`len(audio)` (nonnegative).  The `size_mb <= 25` guard is the exact
`byteSize ≤ 25 * 2^20`; the unsplit branch returns the original file, which
covers `[0, dureeMs)`. -/
def decouper_audio (byteSize : Int) (dureeMs : Nat) : List (Nat × Nat) :=
  if byteSize ≤ (seuil : Int) then
    [(0, dureeMs)]
  else
    let n := nbSegments byteSize
    let segmentDuree := dureeMs / n
    (List.range n).map (fun i =>
      (i * segmentDuree, if i < n - 1 then (i + 1) * segmentDuree else dureeMs))

/-- Number of `segment.export(...)` calls performed by `decouper_audio`: zero
in the `size_mb <= 25` branch (the original file is returned untouched), one
per loop iteration otherwise. -/
def exportCalls (byteSize : Int) (dureeMs : Nat) : Nat :=
  if byteSize ≤ (seuil : Int) then 0
  else (decouper_audio byteSize dureeMs).length

/-- Segment of a plan at index `i` (defaulting out of range, which the
theorems never use thanks to explicit bounds). -/
def segAt (plan : List (Nat × Nat)) (i : Nat) : Nat × Nat :=
  plan.getD i (0, 0)

theorem segAt_range_map (f : Nat → Nat × Nat) {n i : Nat} (h : i < n) :
    segAt ((List.range n).map f) i = f i := by
  have hlen : i < ((List.range n).map f).length := by simpa using h
  rw [segAt, List.getD_eq_getElem _ _ hlen]
  simp

theorem decouper_audio_split (byteSize : Int) (dureeMs : Nat)
    (hb : (seuil : Int) < byteSize) :
    decouper_audio byteSize dureeMs =
      (List.range (nbSegments byteSize)).map (fun i =>
        (i * (dureeMs / nbSegments byteSize),
         if i < nbSegments byteSize - 1 then (i + 1) * (dureeMs / nbSegments byteSize)
         else dureeMs)) := by
  rw [decouper_audio, if_neg (not_le.mpr hb)]

theorem seuil_lt_toNat {byteSize : Int} (hb : (seuil : Int) < byteSize) :
    seuil < byteSize.toNat :=
  Int.lt_toNat.mpr hb

theorem one_lt_nbSegments {byteSize : Int} (hb : (seuil : Int) < byteSize) :
    1 < nbSegments byteSize := by
  have h := seuil_lt_toNat hb
  have hseuil : 0 < seuil := by decide
  rw [nbSegments]
  have h2 : 2 * seuil ≤ byteSize.toNat + seuil - 1 := by omega
  calc 1 < 2 := by decide
    _ = 2 * seuil / seuil := by rw [Nat.mul_div_cancel _ hseuil]
    _ ≤ (byteSize.toNat + seuil - 1) / seuil := Nat.div_le_div_right h2

theorem length_decouper_split (byteSize : Int) (dureeMs : Nat)
    (hb : (seuil : Int) < byteSize) :
    (decouper_audio byteSize dureeMs).length = nbSegments byteSize := by
  rw [decouper_audio_split byteSize dureeMs hb]
  simp

theorem last_start_le (n d : Nat) : (n - 1) * (d / n) ≤ d :=
  le_trans (Nat.mul_le_mul_right _ (Nat.sub_le n 1))
    (by rw [Nat.mul_comm]; exact Nat.div_mul_le_self d n)

/-- C1: for byte size strictly over the threshold, the plan has exactly
`⌈byteSize / seuil⌉` segments; non-final segment `i` spans
`[i * ⌊d / n⌋, (i+1) * ⌊d / n⌋)`; the final segment ends exactly at the
total duration; the ranges partition `[0, d)`: the first starts at `0`,
each segment's end is the next one's start (no gap, no overlap), and every
start is at most its end. -/
theorem C1_split_plan_partition (byteSize : Int) (dureeMs : Nat)
    (hb : (seuil : Int) < byteSize) :
    (decouper_audio byteSize dureeMs).length = (byteSize.toNat + seuil - 1) / seuil ∧
    0 < (decouper_audio byteSize dureeMs).length ∧
    (∀ i, i + 1 < (decouper_audio byteSize dureeMs).length →
      segAt (decouper_audio byteSize dureeMs) i =
        (i * (dureeMs / (decouper_audio byteSize dureeMs).length),
         (i + 1) * (dureeMs / (decouper_audio byteSize dureeMs).length))) ∧
    segAt (decouper_audio byteSize dureeMs) ((decouper_audio byteSize dureeMs).length - 1) =
      (((decouper_audio byteSize dureeMs).length - 1) *
        (dureeMs / (decouper_audio byteSize dureeMs).length), dureeMs) ∧
    (segAt (decouper_audio byteSize dureeMs) 0).1 = 0 ∧
    (∀ i, i + 1 < (decouper_audio byteSize dureeMs).length →
      (segAt (decouper_audio byteSize dureeMs) i).2 =
        (segAt (decouper_audio byteSize dureeMs) (i + 1)).1) ∧
    (∀ i, i < (decouper_audio byteSize dureeMs).length →
      (segAt (decouper_audio byteSize dureeMs) i).1 ≤
        (segAt (decouper_audio byteSize dureeMs) i).2) := by
  have hplan := decouper_audio_split byteSize dureeMs hb
  have hlen := length_decouper_split byteSize dureeMs hb
  have hn1 : 1 < nbSegments byteSize := one_lt_nbSegments hb
  have hat : ∀ i, i < nbSegments byteSize →
      segAt (decouper_audio byteSize dureeMs) i =
        (i * (dureeMs / nbSegments byteSize),
         if i < nbSegments byteSize - 1 then (i + 1) * (dureeMs / nbSegments byteSize)
         else dureeMs) := by
    intro i hi
    rw [hplan]
    exact segAt_range_map _ hi
  rw [hlen, nbSegments] at *
  set n := (byteSize.toNat + seuil - 1) / seuil with hn
  refine ⟨rfl, by omega, ?_, ?_, ?_, ?_, ?_⟩
  · intro i hi
    rw [hat i (by omega), if_pos (by omega)]
  · rw [hat (n - 1) (by omega), if_neg (by omega)]
  · rw [hat 0 (by omega)]
    simp
  · intro i hi
    rw [hat i (by omega), hat (i + 1) (by omega), if_pos (by omega)]
  · intro i hi
    rw [hat i hi]
    by_cases hil : i < n - 1
    · rw [if_pos hil]
      exact Nat.mul_le_mul_right _ (Nat.le_succ i)
    · rw [if_neg hil]
      have hi' : i = n - 1 := by omega
      subst hi'
      exact last_start_le n dureeMs

/-- C1 witness: the spec's example, 60 MiB and 60000 ms, gives the three
segments `[0,20000), [20000,40000), [40000,60000)`. -/
theorem C1_split_plan_partition_witness :
    ((seuil : Int) < 60 * 1024 * 1024 ∧
      0 < (decouper_audio (60 * 1024 * 1024) 60000).length) ∧
    decouper_audio (60 * 1024 * 1024) 60000 =
      [(0, 20000), (20000, 40000), (40000, 60000)] :=
  ⟨⟨by decide, (C1_split_plan_partition (60 * 1024 * 1024) 60000 (by decide)).2.1⟩,
   by decide⟩

/-- C2: for byte size at most the threshold, the plan is the single unit
covering the full duration `[0, dureeMs)` — the original file — and no
export operation is invoked. -/
theorem C2_small_single_segment (byteSize : Int) (dureeMs : Nat)
    (hb : byteSize ≤ (seuil : Int)) :
    decouper_audio byteSize dureeMs = [(0, dureeMs)] ∧
    exportCalls byteSize dureeMs = 0 := by
  constructor
  · rw [decouper_audio, if_pos hb]
  · rw [exportCalls, if_pos hb]

/-- C2 witness: a 10 MiB asset of any duration (here 12345 ms) gives the
single full-range segment and zero export calls. -/
theorem C2_small_single_segment_witness :
    (10 * 1024 * 1024 : Int) ≤ (seuil : Int) ∧
    decouper_audio (10 * 1024 * 1024) 12345 = [(0, 12345)] ∧
    exportCalls (10 * 1024 * 1024) 12345 = 0 :=
  ⟨by decide, C2_small_single_segment (10 * 1024 * 1024) 12345 (by decide)⟩

/-- C9: the plan is a pure function of byte size, duration and the (fixed)
threshold — two runs on equal inputs yield identical plans. -/
theorem C9_plan_deterministic (b₁ b₂ : Int) (d₁ d₂ : Nat)
    (hb : b₁ = b₂) (hd : d₁ = d₂) :
    decouper_audio b₁ d₁ = decouper_audio b₂ d₂ := by
  rw [hb, hd]

/-- C9 witness: determinism at a concrete input. -/
theorem C9_plan_deterministic_witness :
    decouper_audio (30 * 1024 * 1024) 999 = decouper_audio (30 * 1024 * 1024) 999 :=
  C9_plan_deterministic (30 * 1024 * 1024) (30 * 1024 * 1024) 999 999 rfl rfl

theorem div_le_remainder (n d : Nat) (hn : 0 < n) :
    d / n ≤ d - (n - 1) * (d / n) := by
  cases n with
  | zero => exact absurd hn (by decide)
  | succ m =>
    have h1 : (m + 1 - 1) * (d / (m + 1)) + d / (m + 1) = (m + 1) * (d / (m + 1)) := by
      rw [Nat.add_sub_cancel, Nat.succ_mul]
    have h2 : (m + 1) * (d / (m + 1)) ≤ d := by
      rw [Nat.mul_comm]
      exact Nat.div_mul_le_self d (m + 1)
    exact Nat.le_sub_of_add_le (by rw [Nat.add_comm, h1]; exact h2)

/-- C10: every plan is nonempty, every segment's start is at most its end,
every non-final segment has duration `⌊d / n⌋`, and the final segment's
duration is `d - (n-1) * ⌊d / n⌋`, which is at least `⌊d / n⌋` — the last
segment is never shorter than the others. -/
theorem C10_last_segment_longest (byteSize : Int) (dureeMs : Nat) :
    1 ≤ (decouper_audio byteSize dureeMs).length ∧
    (∀ i, i < (decouper_audio byteSize dureeMs).length →
      (segAt (decouper_audio byteSize dureeMs) i).1 ≤
        (segAt (decouper_audio byteSize dureeMs) i).2) ∧
    (∀ i, i + 1 < (decouper_audio byteSize dureeMs).length →
      (segAt (decouper_audio byteSize dureeMs) i).2 -
        (segAt (decouper_audio byteSize dureeMs) i).1 =
        dureeMs / (decouper_audio byteSize dureeMs).length) ∧
    (segAt (decouper_audio byteSize dureeMs)
        ((decouper_audio byteSize dureeMs).length - 1)).2 -
      (segAt (decouper_audio byteSize dureeMs)
        ((decouper_audio byteSize dureeMs).length - 1)).1 =
      dureeMs - ((decouper_audio byteSize dureeMs).length - 1) *
        (dureeMs / (decouper_audio byteSize dureeMs).length) ∧
    dureeMs / (decouper_audio byteSize dureeMs).length ≤
      (segAt (decouper_audio byteSize dureeMs)
        ((decouper_audio byteSize dureeMs).length - 1)).2 -
        (segAt (decouper_audio byteSize dureeMs)
          ((decouper_audio byteSize dureeMs).length - 1)).1 := by
  by_cases hb : byteSize ≤ (seuil : Int)
  · have hplan : decouper_audio byteSize dureeMs = [(0, dureeMs)] := by
      rw [decouper_audio, if_pos hb]
    rw [hplan]
    have h0 : segAt [(0, dureeMs)] 0 = (0, dureeMs) := rfl
    refine ⟨by simp, ?_, ?_, ?_, ?_⟩
    · intro i hi
      simp at hi
      subst hi
      rw [h0]
      exact Nat.zero_le dureeMs
    · intro i hi
      simp at hi
    · simp [h0, Nat.div_one]
    · simp [h0, Nat.div_one]
  · have hlt := not_le.mp hb
    have hplan := decouper_audio_split byteSize dureeMs hlt
    have hlen := length_decouper_split byteSize dureeMs hlt
    have hn1 : 1 < nbSegments byteSize := one_lt_nbSegments hlt
    have hat : ∀ i, i < nbSegments byteSize →
        segAt (decouper_audio byteSize dureeMs) i =
          (i * (dureeMs / nbSegments byteSize),
           if i < nbSegments byteSize - 1 then
             (i + 1) * (dureeMs / nbSegments byteSize)
           else dureeMs) := by
      intro i hi
      rw [hplan]
      exact segAt_range_map _ hi
    rw [hlen]
    set n := nbSegments byteSize with hn
    refine ⟨by omega, ?_, ?_, ?_, ?_⟩
    · intro i hi
      rw [hat i hi]
      by_cases hil : i < n - 1
      · rw [if_pos hil]
        exact Nat.mul_le_mul_right _ (Nat.le_succ i)
      · rw [if_neg hil]
        have hi' : i = n - 1 := by omega
        subst hi'
        exact last_start_le n dureeMs
    · intro i hi
      rw [hat i (by omega), if_pos (by omega), Nat.succ_mul,
        Nat.add_sub_cancel_left]
    · rw [hat (n - 1) (by omega), if_neg (by omega)]
    · rw [hat (n - 1) (by omega), if_neg (by omega)]
      exact div_le_remainder n dureeMs (by omega)

/-- C10 witness: the invariants instantiated on the 60 MiB, 60000 ms plan. -/
theorem C10_last_segment_longest_witness :
    1 ≤ (decouper_audio (60 * 1024 * 1024) 60000).length ∧
    (decouper_audio (60 * 1024 * 1024) 60000).length = 3 :=
  ⟨(C10_last_segment_longest (60 * 1024 * 1024) 60000).1, by decide⟩

/-- C5 counterexample: a 26 MiB asset of total duration 0 yields two
zero-length segments, not one. -/
theorem C5_counterexample :
    decouper_audio (26 * 1024 * 1024) 0 = [(0, 0), (0, 0)] ∧
    (decouper_audio (26 * 1024 * 1024) 0).length ≠ 1 := by
  decide

/-- C5 amended: when the total duration is 0 every planned segment is
zero-length, but the segment count is unchanged: the plan is a single
segment exactly when byte size is at most the threshold, and has
`⌈byteSize / seuil⌉` zero-length segments when byte size exceeds it. -/
theorem C5_zero_duration (byteSize : Int) :
    (∀ p ∈ decouper_audio byteSize 0, p = (0, 0)) ∧
    (byteSize ≤ (seuil : Int) → decouper_audio byteSize 0 = [(0, 0)]) ∧
    ((seuil : Int) < byteSize →
      (decouper_audio byteSize 0).length = (byteSize.toNat + seuil - 1) / seuil) := by
  by_cases hb : byteSize ≤ (seuil : Int)
  · have hplan : decouper_audio byteSize 0 = [(0, 0)] := by
      rw [decouper_audio, if_pos hb]
    refine ⟨?_, fun _ => hplan, fun hlt => absurd hlt (not_lt.mpr hb)⟩
    intro p hp
    rw [hplan] at hp
    simpa using hp
  · have hlt := not_le.mp hb
    refine ⟨?_, fun hle => absurd hle hb, ?_⟩
    · intro p hp
      rw [decouper_audio_split byteSize 0 hlt] at hp
      simp only [List.mem_map, List.mem_range] at hp
      obtain ⟨i, hi, rfl⟩ := hp
      simp [Nat.zero_div]
    · intro _
      rw [length_decouper_split byteSize 0 hlt, nbSegments]

/-- C5 amended witness: the 26 MiB, duration-0 asset has
`⌈26 MiB / seuil⌉ = 2` segments. -/
theorem C5_zero_duration_witness :
    (seuil : Int) < 26 * 1024 * 1024 ∧
    (decouper_audio (26 * 1024 * 1024) 0).length =
      ((26 * 1024 * 1024 : Int).toNat + seuil - 1) / seuil :=
  ⟨by decide, (C5_zero_duration (26 * 1024 * 1024)).2.2 (by decide)⟩

/-- C8 counterexample: a negative byte size is not rejected: the planner
satisfies the `size_mb <= 25` test and returns the ordinary single
full-duration plan instead of failing — no InvalidAssetError exists in the
code and nothing is raised by the planner's arithmetic. -/
theorem C8_counterexample :
    decouper_audio (-1) 1000 = [(0, 1000)] := by
  decide

/-- C8 amended: the planner performs no input validation; every negative
byte size falls into the at-most-threshold branch and yields the single
full-duration segment plan (unreadable files would surface the underlying
I/O exception of `stat`/`from_file`, not an InvalidAssetError, which the
code never defines). -/
theorem C8_no_validation (byteSize : Int) (dureeMs : Nat)
    (hneg : byteSize < 0) :
    decouper_audio byteSize dureeMs = [(0, dureeMs)] := by
  rw [decouper_audio, if_pos (le_trans (le_of_lt hneg) (by decide))]

/-- C8 amended witness: byte size `-5` gives the single full-range plan. -/
theorem C8_no_validation_witness :
    (-5 : Int) < 0 ∧ decouper_audio (-5) 42 = [(0, 42)] :=
  ⟨by decide, C8_no_validation (-5) 42 (by decide)⟩

/-- Embedding of Python's `str.strip()` as used on `texte_total`: drop the
leading and trailing whitespace characters (space, tab, carriage return,
newline — the characters that can occur around the fragments here). -/
def strip (s : String) : String :=
  String.mk
    (((s.data.dropWhile Char.isWhitespace).reverse.dropWhile
        Char.isWhitespace).reverse)

/-- The `for i, seg in enumerate(segments, 1)` loop of `transcrire_audio`
(src/whisper_site.py, lines 266-275), indexing segments from 0: at segment
index `i` with `k` segments remaining and accumulator `acc` (`texte_total`),
the capability call either returns `res`, after which the loop continues on
`acc + res + "\n"`, or raises, and the exception propagates unchanged
(there is no try/except). -/
def boucle {ε : Type} (cap : Nat → Except ε String) :
    Nat → Nat → String → Except ε String
  | _, 0, acc => Except.ok acc
  | i, k + 1, acc =>
    match cap i with
    | Except.error e => Except.error e
    | Except.ok res => boucle cap (i + 1) k (acc ++ res ++ "\n")

/-- Embedding of `transcrire_audio` (src/whisper_site.py, lines 263-277):
obtain the segment plan, run the sequential loop from index 0 with an empty
accumulator, and return `texte_total.strip()` on success; a capability
exception propagates unchanged.  The capability is the external
`client.audio.transcriptions.create` call on the segment at each index. -/
def transcrire_audio {ε : Type} (cap : Nat → Except ε String)
    (byteSize : Int) (dureeMs : Nat) : Except ε String :=
  (boucle cap 0 (decouper_audio byteSize dureeMs).length ("")).map strip

/-- Indices of the segments the loop of `transcrire_audio` actually submits
to the capability, in call order: the loop is sequential and blocking, and
stops at the first failing call. -/
def boucleTrace {ε : Type} (cap : Nat → Except ε String) : Nat → Nat → List Nat
  | _, 0 => []
  | i, k + 1 =>
    match cap i with
    | Except.error _ => [i]
    | Except.ok _ => i :: boucleTrace cap (i + 1) k

/-- Submission trace of `transcrire_audio` over the plan of the given
asset. -/
def appelsTranscription {ε : Type} (cap : Nat → Except ε String)
    (byteSize : Int) (dureeMs : Nat) : List Nat :=
  boucleTrace cap 0 (decouper_audio byteSize dureeMs).length

/-- The text a successful run accumulates over segments
`i, i+1, ..., i+k-1` with fragments `f`: each raw fragment in index order,
each followed by one newline. -/
def concatFrom (f : Nat → String) : Nat → Nat → String
  | _, 0 => ""
  | i, k + 1 => f i ++ "\n" ++ concatFrom f (i + 1) k

theorem boucle_ok {ε : Type} (cap : Nat → Except ε String) (f : Nat → String) :
    ∀ (k i : Nat) (acc : String),
      (∀ j, j < k → cap (i + j) = Except.ok (f (i + j))) →
      boucle cap i k acc = Except.ok (acc ++ concatFrom f i k) := by
  intro k
  induction k with
  | zero =>
    intro i acc _
    simp [boucle, concatFrom]
  | succ k ih =>
    intro i acc h
    have h0 : cap i = Except.ok (f i) := by simpa using h 0 (Nat.succ_pos k)
    have hrest : ∀ j, j < k → cap (i + 1 + j) = Except.ok (f (i + 1 + j)) := by
      intro j hj
      have := h (j + 1) (by omega)
      have heq : i + (j + 1) = i + 1 + j := by omega
      rwa [heq] at this
    rw [boucle, h0]
    simp only
    rw [ih (i + 1) (acc ++ f i ++ "\n") hrest, concatFrom]
    simp [String.append_assoc]

theorem boucle_error {ε : Type} (cap : Nat → Except ε String)
    (f : Nat → String) (e : ε) :
    ∀ (k j i : Nat) (acc : String), j < k →
      (∀ l, l < j → cap (i + l) = Except.ok (f (i + l))) →
      cap (i + j) = Except.error e →
      boucle cap i k acc = Except.error e := by
  intro k
  induction k with
  | zero =>
    intro j i acc hj _ _
    exact absurd hj (Nat.not_lt_zero j)
  | succ k ih =>
    intro j i acc hj hok hfail
    cases j with
    | zero =>
      rw [boucle]
      have : cap i = Except.error e := by simpa using hfail
      rw [this]
    | succ j =>
      have h0 : cap i = Except.ok (f i) := by
        simpa using hok 0 (Nat.succ_pos j)
      rw [boucle, h0]
      simp only
      refine ih j (i + 1) (acc ++ f i ++ "\n") (by omega) ?_ ?_
      · intro l hl
        have := hok (l + 1) (by omega)
        have heq : i + (l + 1) = i + 1 + l := by omega
        rwa [heq] at this
      · have heq : i + (j + 1) = i + 1 + j := by omega
        rwa [heq] at hfail

theorem boucleTrace_ok {ε : Type} (cap : Nat → Except ε String)
    (f : Nat → String) :
    ∀ (k i : Nat),
      (∀ j, j < k → cap (i + j) = Except.ok (f (i + j))) →
      boucleTrace cap i k = List.range' i k := by
  intro k
  induction k with
  | zero =>
    intro i _
    simp [boucleTrace, List.range']
  | succ k ih =>
    intro i h
    have h0 : cap i = Except.ok (f i) := by simpa using h 0 (Nat.succ_pos k)
    have hrest : ∀ j, j < k → cap (i + 1 + j) = Except.ok (f (i + 1 + j)) := by
      intro j hj
      have := h (j + 1) (by omega)
      have heq : i + (j + 1) = i + 1 + j := by omega
      rwa [heq] at this
    rw [boucleTrace, h0]
    simp only
    rw [ih (i + 1) hrest, List.range']

/-- C3 amended: when every capability call succeeds, the sequencer's result
is the raw fragments in index order, each followed by a single newline,
concatenated, with only the overall result trimmed — fragments are not
individually trimmed.  For fragments without leading or trailing whitespace
this coincides with joining by a single newline. -/
theorem C3_assembled_text {ε : Type} (cap : Nat → Except ε String)
    (f : Nat → String) (byteSize : Int) (dureeMs : Nat)
    (hok : ∀ j, j < (decouper_audio byteSize dureeMs).length →
      cap j = Except.ok (f j)) :
    transcrire_audio cap byteSize dureeMs =
      Except.ok (strip
        (concatFrom f 0 (decouper_audio byteSize dureeMs).length)) := by
  rw [transcrire_audio,
    boucle_ok cap f (decouper_audio byteSize dureeMs).length 0 ("")
      (by simpa using hok)]
  simp [Except.map]

/-- Fragments of the spec's example: "Hello" then "world". -/
def fragHW : Nat → String
  | 0 => "Hello"
  | 1 => "world"
  | _ => ""

/-- Capability returning the example fragments, never failing. -/
def capHW : Nat → Except Unit String := fun i => Except.ok (fragHW i)

/-- C3 amended witness: on a two-segment 26 MiB asset with fragments
"Hello" and "world", the result is exactly "Hello\nworld". -/
theorem C3_assembled_text_witness :
    transcrire_audio capHW (26 * 1024 * 1024) 100 =
      Except.ok (strip (concatFrom fragHW 0
        (decouper_audio (26 * 1024 * 1024) 100).length)) ∧
    transcrire_audio capHW (26 * 1024 * 1024) 100 =
      Except.ok ("Hello\nworld") :=
  ⟨C3_assembled_text capHW fragHW (26 * 1024 * 1024) 100 (fun _ _ => rfl),
   rfl⟩

/-- Fragments with an inner trailing space, exposing the absence of
per-fragment trimming in the code. -/
def fragAB : Nat → String
  | 0 => "a "
  | _ => "b"

/-- Capability returning the fragments "a " and "b", never failing. -/
def capAB : Nat → Except Unit String := fun i => Except.ok (fragAB i)

/-- C3 counterexample: on a two-segment 26 MiB asset with fragments "a "
and "b", the code returns "a \nb" — the inner trailing space survives —
while the claim's formula (trim each fragment, join by a single newline,
trim the whole) gives "a\nb". -/
theorem C3_counterexample :
    transcrire_audio capAB (26 * 1024 * 1024) 100 = Except.ok ("a \nb") ∧
    strip (String.intercalate ("\n")
      ([fragAB 0, fragAB 1].map strip)) = "a\nb" ∧
    ("a \nb" : String) ≠ "a\nb" := by
  refine ⟨rfl, rfl, ?_⟩
  decide

/-- C4 amended: if the capability call fails at segment index `j` of the
plan, the earlier calls having succeeded, the whole run of
`transcrire_audio` fails and returns exactly the failing call's underlying
cause — the raw exception propagates, with no segment index attached — and
no partial transcript is returned: the fragments of the segments before `j`
are discarded. -/
theorem C4_failure_aborts {ε : Type} (cap : Nat → Except ε String)
    (f : Nat → String) (e : ε) (byteSize : Int) (dureeMs : Nat) (j : Nat)
    (hj : j < (decouper_audio byteSize dureeMs).length)
    (hok : ∀ l, l < j → cap l = Except.ok (f l))
    (hfail : cap j = Except.error e) :
    transcrire_audio cap byteSize dureeMs = Except.error e := by
  rw [transcrire_audio,
    boucle_error cap f e (decouper_audio byteSize dureeMs).length j 0 ("") hj
      (by simpa using hok) (by simpa using hfail)]
  rfl

/-- Capability that transcribes segment 0 and fails on every later one. -/
def capFail1 : Nat → Except Nat String
  | 0 => Except.ok ("premier")
  | _ => Except.error 7

/-- C4 amended witness: on the three-segment 60 MiB asset, failure at
segment index 1 with cause 7 makes the whole run return exactly that
cause; the fragment of segment 0 is discarded. -/
theorem C4_failure_aborts_witness :
    (1 < (decouper_audio (60 * 1024 * 1024) 60000).length ∧
      capFail1 1 = Except.error 7) ∧
    transcrire_audio capFail1 (60 * 1024 * 1024) 60000 = Except.error 7 :=
  ⟨⟨by decide, rfl⟩,
   C4_failure_aborts capFail1 (fun _ => "premier") 7 (60 * 1024 * 1024)
     60000 1 (by decide) (fun l hl => by interval_cases l; rfl) rfl⟩

/-- Capability failing immediately at segment 0 with cause 7. -/
def capFail0 : Nat → Except Nat String := fun _ => Except.error 7

/-- C4 counterexample: two runs on the same 60 MiB asset whose first
failing segments differ — index 0 for one capability, index 1 for the
other, both with cause 7 — produce identical results: the propagated
failure is the bare cause, so it cannot carry the failing segment's index,
contradicting the claim that the run fails with a value carrying that
index. -/
theorem C4_counterexample :
    transcrire_audio capFail0 (60 * 1024 * 1024) 60000 = Except.error 7 ∧
    transcrire_audio capFail1 (60 * 1024 * 1024) 60000 = Except.error 7 ∧
    capFail0 0 = Except.error 7 ∧
    capFail1 0 = Except.ok ("premier") ∧
    capFail1 1 = Except.error 7 :=
  ⟨rfl, rfl, rfl, rfl, rfl⟩

/-- C7: a successful run submits the segments strictly in index order (the
embedded loop is sequential and blocking: the submission trace records each
call in the order the loop issues and awaits it), the trace is exactly
`0, 1, ..., n-1`, one capability call — hence one fragment — per segment,
and the result assembles the fragments in that same temporal order. -/
theorem C7_sequential_order {ε : Type} (cap : Nat → Except ε String)
    (f : Nat → String) (byteSize : Int) (dureeMs : Nat)
    (hok : ∀ j, j < (decouper_audio byteSize dureeMs).length →
      cap j = Except.ok (f j)) :
    appelsTranscription cap byteSize dureeMs =
      List.range (decouper_audio byteSize dureeMs).length ∧
    (appelsTranscription cap byteSize dureeMs).length =
      (decouper_audio byteSize dureeMs).length ∧
    transcrire_audio cap byteSize dureeMs =
      Except.ok (strip
        (concatFrom f 0 (decouper_audio byteSize dureeMs).length)) := by
  have htrace : appelsTranscription cap byteSize dureeMs =
      List.range (decouper_audio byteSize dureeMs).length := by
    rw [appelsTranscription,
      boucleTrace_ok cap f (decouper_audio byteSize dureeMs).length 0
        (by simpa using hok)]
    exact (List.range_eq_range' _).symm
  refine ⟨htrace, by rw [htrace]; simp, ?_⟩
  rw [transcrire_audio,
    boucle_ok cap f (decouper_audio byteSize dureeMs).length 0 ("")
      (by simpa using hok)]
  simp [Except.map]

/-- C7 witness: on the two-segment 26 MiB asset with the always-succeeding
example capability, the submission trace is `[0, 1]`. -/
theorem C7_sequential_order_witness :
    appelsTranscription capHW (26 * 1024 * 1024) 100 =
      List.range (decouper_audio (26 * 1024 * 1024) 100).length ∧
    appelsTranscription capHW (26 * 1024 * 1024) 100 = [0, 1] :=
  ⟨(C7_sequential_order capHW fragHW (26 * 1024 * 1024) 100
      (fun _ _ => rfl)).1,
   by decide⟩

end WhisperSite
